import Mathlib

/-!
Verification of the spglm `family` module (src/spglm/family.py): a shallow
embedding of the one-parameter exponential-family classes (Family, Poisson,
QuasiPoisson, Gaussian, Gamma, Binomial, NegativeBinomial) over the reals,
with arrays modelled as `List ℝ`.  The link functions and variance functions
live in `links.py` / `varfuncs.py`, which are external to the sources; the
few pieces of them this module touches are modelled from the specification
and marked as such.
-/

namespace Spglm

/-- Modelled from the spec: the tags of the link classes provided by the
    external `links.py` (logit, log, identity, inverse, power, cloglog,
    probit, Cauchy, negative-binomial link). -/
inductive LinkClass where
  | log
  | identity
  | sqrt
  | logit
  | probit
  | cauchy
  | cloglog
  | inversePower
  | nbinom
  | power
  deriving DecidableEq

/-- An object assigned to `Family.link`: either a Link instance of some
    link class, or an object that is not a Link at all. -/
inductive LinkArg where
  | link (c : LinkClass)
  | notLink
  deriving DecidableEq

/-- The observable outcome of `Family._setlink`: success, the TypeError
    raised for non-Link objects, or the ValueError naming the allowed list. -/
inductive SetlinkOutcome where
  | ok
  | typeErr
  | valueErr (allowed : List LinkClass)
  deriving DecidableEq

/-- `Family._setlink`, src/spglm/family.py lines 41-66: it first stores the
    supplied object in `self._link`, and only then validates it — raising
    TypeError when the object is not a Link instance, and ValueError (whose
    message names the family's `links` list) when the Link's class is not
    among the allowed ones.  The result is the stored `_link` value paired
    with the outcome. -/
def Family.setlink (allowed : List LinkClass) (arg : LinkArg) : LinkArg × SetlinkOutcome :=
  match arg with
  | LinkArg.notLink => (arg, SetlinkOutcome.typeErr)
  | LinkArg.link c =>
      if c ∈ allowed then (arg, SetlinkOutcome.ok)
      else (arg, SetlinkOutcome.valueErr allowed)

noncomputable section

/-- `FLOAT_EPS = np.finfo(float).eps`, the double-precision machine epsilon. -/
def FLOAT_EPS : ℝ := 1 / 2 ^ (52 : ℕ)

/-- Elementwise combination of three arrays (numpy broadcasting of a ternary
    arithmetic expression over equal-length arrays). -/
def zipWith3 (f : ℝ → ℝ → ℝ → ℝ) : List ℝ → List ℝ → List ℝ → List ℝ
  | a :: as, b :: bs, c :: cs => f a b c :: zipWith3 f as bs cs
  | _, _, _ => []

/-- Elementwise combination of four arrays. -/
def zipWith4 (f : ℝ → ℝ → ℝ → ℝ → ℝ) : List ℝ → List ℝ → List ℝ → List ℝ → List ℝ
  | a :: as, b :: bs, c :: cs, d :: ds => f a b c d :: zipWith4 f as bs cs ds
  | _, _, _, _ => []

/-- An all-ones array of the same length as `l`: the broadcast of the scalar
    default `freq_weights = 1.0`. -/
def ones (l : List ℝ) : List ℝ := l.map fun _ => 1

/-- Modelled from the spec: the external LinkFunction capability contract of
    `links.py` — forward transform `call`, its `inverse`, the derivative
    `deriv`, and the boundary-clipping helper `clean` (called `_clean` on the
    link object).  `isPowerOne` records whether the object is a Power link
    with `power == 1` (the identity link), which `Gaussian.loglike` tests via
    `isinstance(self.link, L.Power) and self.link.power == 1`. -/
structure Link where
  call : ℝ → ℝ
  inverse : ℝ → ℝ
  deriv : ℝ → ℝ
  clean : ℝ → ℝ
  isPowerOne : Bool

/-- `Family.fitted` (lines 163-180): the inverse link applied to the linear
    predictor. -/
def Family.fitted (link : Link) (lin_pred : List ℝ) : List ℝ :=
  lin_pred.map link.inverse

/-- `Family.predict` (lines 182-197): the forward link applied to the mean. -/
def Family.predict (link : Link) (mu : List ℝ) : List ℝ :=
  mu.map link.call

/-- `Poisson._clean`: `np.clip(x, FLOAT_EPS, inf)`. -/
def Poisson.clean (x : ℝ) : ℝ := max x FLOAT_EPS

/-- `Poisson.resid_dev` (lines 271-295):
    `sign(endog-mu) * sqrt(2*(endog*log(endog/mu) - (endog-mu))) / scale`,
    the ratio `endog/mu` being clipped below at `FLOAT_EPS`. -/
def Poisson.resid_dev (endog mu : List ℝ) (scale : ℝ) : List ℝ :=
  List.zipWith
    (fun y m => Real.sign (y - m) *
      Real.sqrt (2 * (y * Real.log (Poisson.clean (y / m)) - (y - m))) / scale)
    endog mu

/-- `Poisson.deviance` (lines 297-320):
    `2 * sum(endog * freq_weights * log(endog/mu)) / scale`, clipped ratio. -/
def Poisson.deviance (endog mu freq_weights : List ℝ) (scale : ℝ) : ℝ :=
  2 * (zipWith3 (fun y m w => y * w * Real.log (Poisson.clean (y / m)))
        endog mu freq_weights).sum / scale

/-- `QuasiPoisson._clean`: identical to `Poisson._clean`. -/
def QuasiPoisson.clean (x : ℝ) : ℝ := max x FLOAT_EPS

/-- `QuasiPoisson.resid_dev` (lines 406-430): textually identical to
    `Poisson.resid_dev`. -/
def QuasiPoisson.resid_dev (endog mu : List ℝ) (scale : ℝ) : List ℝ :=
  List.zipWith
    (fun y m => Real.sign (y - m) *
      Real.sqrt (2 * (y * Real.log (QuasiPoisson.clean (y / m)) - (y - m))) / scale)
    endog mu

/-- `QuasiPoisson.deviance` (lines 432-455): textually identical to
    `Poisson.deviance`. -/
def QuasiPoisson.deviance (endog mu freq_weights : List ℝ) (scale : ℝ) : ℝ :=
  2 * (zipWith3 (fun y m w => y * w * Real.log (QuasiPoisson.clean (y / m)))
        endog mu freq_weights).sum / scale

/-- `QuasiPoisson.loglike` (lines 457-467): `return np.nan` for every input;
    the not-a-number sentinel is modelled as `Option.none`. -/
def QuasiPoisson.loglike (endog mu freq_weights : List ℝ) (scale : ℝ) : Option ℝ :=
  none

/-- Modelled from the spec: `varfuncs.constant`, the Gaussian variance
    function `variance(mu) = 1`. -/
def constantVariance (mu : ℝ) : ℝ := 1

/-- `Gaussian.resid_dev` (lines 515-536):
    `(endog - mu) / sqrt(variance(mu)) / scale`. -/
def Gaussian.resid_dev (endog mu : List ℝ) (scale : ℝ) : List ℝ :=
  List.zipWith (fun y m => (y - m) / Real.sqrt (constantVariance m) / scale) endog mu

/-- `Gaussian.deviance` (lines 538-560):
    `sum(freq_weights * (endog - mu)**2) / scale`. -/
def Gaussian.deviance (endog mu freq_weights : List ℝ) (scale : ℝ) : ℝ :=
  (zipWith3 (fun y m w => w * (y - m) ^ 2) endog mu freq_weights).sum / scale

/-- `Gaussian.loglike` (lines 562-599).  When the configured link is a Power
    link with power 1 (the identity) it returns the concentrated OLS
    log-likelihood `-log(SSR)*nobs2 - (1+log(pi/nobs2))*nobs2` with
    `nobs2 = len(endog)/2` and `SSR = sum((endog - fitted(mu))**2)`; with any
    other link it returns the general exponential-family form. -/
def Gaussian.loglike (link : Link) (endog mu freq_weights : List ℝ) (scale : ℝ) : ℝ :=
  if link.isPowerOne then
    -Real.log ((List.zipWith (fun y m => (y - link.inverse m) ^ 2) endog mu).sum)
        * ((endog.length : ℝ) / 2)
      - (1 + Real.log (Real.pi / ((endog.length : ℝ) / 2))) * ((endog.length : ℝ) / 2)
  else
    (zipWith3
      (fun y m w => w * ((y * m - m ^ 2 / 2) / scale - y ^ 2 / (2 * scale)
        - 0.5 * Real.log (2 * Real.pi * scale)))
      endog mu freq_weights).sum

/-- `Gamma._clean`: `np.clip(x, FLOAT_EPS, inf)`. -/
def Gamma.clean (x : ℝ) : ℝ := max x FLOAT_EPS

/-- `Gamma.deviance` (lines 656-678):
    `2 * sum(freq_weights * ((endog - mu)/mu - log(endog/mu)))`, clipped
    ratio; the `scale` argument is accepted but unused (`noqa ARG002`). -/
def Gamma.deviance (endog mu freq_weights : List ℝ) (scale : ℝ) : ℝ :=
  2 * (zipWith3 (fun y m w => w * ((y - m) / m - Real.log (Gamma.clean (y / m))))
        endog mu freq_weights).sum

/-- `Gamma.resid_dev` (lines 680-703):
    `sign(endog-mu) * sqrt(-2*(-(endog-mu)/mu + log(endog/mu)))`, clipped
    ratio; the `scale` argument is accepted but unused (`noqa ARG002`). -/
def Gamma.resid_dev (endog mu : List ℝ) (scale : ℝ) : List ℝ :=
  List.zipWith
    (fun y m => Real.sign (y - m) *
      Real.sqrt (-2 * (-(y - m) / m + Real.log (Gamma.clean (y / m)))))
    endog mu

/-- Modelled from the spec: the logit link's clipping helper clamps the mean
    into the safe numerical domain away from 0 and 1. -/
def Logit.clean (p : ℝ) : ℝ := min (max p FLOAT_EPS) (1 - FLOAT_EPS)

/-- Modelled from the spec: the logit Link instance, Binomial's default link:
    forward `log(p/(1-p))`, inverse `1/(1+exp(-z))`, derivative `1/(p(1-p))`. -/
def logitLink : Link where
  call := fun p => Real.log (p / (1 - p))
  inverse := fun z => 1 / (1 + Real.exp (-z))
  deriv := fun p => 1 / (p * (1 - p))
  clean := Logit.clean
  isPowerOne := false

/-- Modelled from the spec: the identity link, a Power link with power 1
    (forward and inverse are the identity map). -/
def identityLink : Link where
  call := fun x => x
  inverse := fun x => x
  deriv := fun _ => 1
  clean := fun x => x
  isPowerOne := true

/-- `Binomial.deviance` (lines 835-874), branching on whether `self.n` is the
    scalar 1 (Bernoulli data) or an array (grouped data); the `scale`
    argument is accepted but unused (`noqa ARG002`). -/
def Binomial.deviance : (ℝ ⊕ List ℝ) → List ℝ → List ℝ → List ℝ → ℝ → ℝ
  | Sum.inl c, endog, mu, freq_weights, _scale =>
      if c = 1 then
        -2 * (zipWith3
          (fun y m w =>
            ((if y = 1 then (1 : ℝ) else 0) * Real.log (m + 1e-200)
              + (1 - if y = 1 then (1 : ℝ) else 0) * Real.log (1 - m + 1e-200)) * w)
          endog mu freq_weights).sum
      else
        2 * (zipWith3
          (fun y m w => c * w * (y * Real.log (y / m + 1e-200)
            + (1 - y) * Real.log ((1 - y) / (1 - m) + 1e-200)))
          endog mu freq_weights).sum
  | Sum.inr ns, endog, mu, freq_weights, _scale =>
      2 * (zipWith4
        (fun nn y m w => nn * w * (y * Real.log (y / m + 1e-200)
          + (1 - y) * Real.log ((1 - y) / (1 - m) + 1e-200)))
        ns endog mu freq_weights).sum

/-- `Binomial.resid_dev` (lines 876-917): `mu` is first clipped by the
    family link's `_clean` helper, then the Bernoulli / grouped branch is
    taken on `self.n` as in `deviance`. -/
def Binomial.resid_dev (link : Link) : (ℝ ⊕ List ℝ) → List ℝ → List ℝ → ℝ → List ℝ
  | Sum.inl c, endog, mu, scale =>
      if c = 1 then
        List.zipWith
          (fun y m => Real.sign (y - m) *
            Real.sqrt (-2 * Real.log ((if y = 1 then (1 : ℝ) else 0) * m
              + (1 - if y = 1 then (1 : ℝ) else 0) * (1 - m))) / scale)
          endog (mu.map link.clean)
      else
        List.zipWith
          (fun y m => Real.sign (y - m) *
            Real.sqrt (2 * c * (y * Real.log (y / m + 1e-200)
              + (1 - y) * Real.log ((1 - y) / (1 - m) + 1e-200))) / scale)
          endog (mu.map link.clean)
  | Sum.inr ns, endog, mu, scale =>
      zipWith3
        (fun nn y m => Real.sign (y - m) *
          Real.sqrt (2 * nn * (y * Real.log (y / m + 1e-200)
            + (1 - y) * Real.log ((1 - y) / (1 - m) + 1e-200))) / scale)
        ns endog (mu.map link.clean)

/-- The response handed to Binomial initialization: a one-column response, or
    a two-column (successes, failures) array. -/
inductive EndogInput where
  | one (v : List ℝ)
  | two (rows : List (ℝ × ℝ))

/-- The per-instance state a Binomial family carries: the trial count `n`
    (scalar or per-observation array) and the `n` parameter captured by the
    variance function `V.Binomial(n=...)` when it was built. -/
structure BinomialFam where
  n : ℝ ⊕ List ℝ
  varianceN : ℝ ⊕ List ℝ

/-- `Binomial.__init__` (lines 791-798): `self.n = 1` and
    `self.variance = V.Binomial(n=self.n)`. -/
def Binomial.mkFam : BinomialFam := ⟨Sum.inl 1, Sum.inl 1⟩

/-- `Binomial.initialize` (lines 807-833, named `initResp` here because the
    source's name is unavailable).  For a two-column (successes, failures)
    response it sets `self.n = endog.sum(1)` and returns
    `(endog[:,0] * 1.0 / self.n, self.n)`; otherwise it returns the response
    unchanged together with a ones array.  `self.variance` is not touched in
    either branch (the re-keying code in the source is commented out). -/
def Binomial.initResp (b : BinomialFam) : EndogInput → BinomialFam × List ℝ × List ℝ
  | EndogInput.two rows =>
      (⟨Sum.inr (rows.map fun p => p.1 + p.2), b.varianceN⟩,
        List.zipWith (fun p nn => p.1 * 1.0 / nn) rows (rows.map fun p => p.1 + p.2),
        rows.map fun p => p.1 + p.2)
  | EndogInput.one v => (b, v, List.replicate v.length 1)

/-- `NegativeBinomial._clean`: `np.clip(x, FLOAT_EPS, inf)`. -/
def NegativeBinomial.clean (x : ℝ) : ℝ := max x FLOAT_EPS

/-- `NegativeBinomial.resid_dev` (lines 1047-1072):
    `2*(endog*log(endog/mu) - (endog+1/alpha)*log((endog+1/alpha)/(mu+1/alpha)))`,
    the ratio `endog/mu` clipped below at `FLOAT_EPS`.  Note that unlike the
    other families this is already the squared contribution (no sign/sqrt). -/
def NegativeBinomial.resid_dev (alpha : ℝ) (endog mu : List ℝ) : List ℝ :=
  List.zipWith
    (fun y m => 2 * (y * Real.log (NegativeBinomial.clean (y / m))
      - (y + 1 / alpha) * Real.log ((y + 1 / alpha) / (m + 1 / alpha))))
    endog mu

/-- `NegativeBinomial.deviance` (lines 1197-1231):
    `sum(resid_dev * freq_weights * var_weights / scale)`. -/
def NegativeBinomial.deviance (alpha : ℝ) (endog mu var_weights freq_weights : List ℝ)
    (scale : ℝ) : ℝ :=
  (zipWith3 (fun r w v => r * w * v / scale)
    (NegativeBinomial.resid_dev alpha endog mu) freq_weights var_weights).sum

end

/-- C3: QuasiPoisson returns the same deviance and the same deviance
    residuals as Poisson on every identical input, and its log-likelihood is
    the not-a-number sentinel (modelled `none`) for every input whatsoever. -/
theorem claim_C3 :
    (∀ (endog mu freq_weights : List ℝ) (scale : ℝ),
        QuasiPoisson.deviance endog mu freq_weights scale
          = Poisson.deviance endog mu freq_weights scale)
    ∧ (∀ (endog mu : List ℝ) (scale : ℝ),
        QuasiPoisson.resid_dev endog mu scale = Poisson.resid_dev endog mu scale)
    ∧ (∀ (endog mu freq_weights : List ℝ) (scale : ℝ),
        QuasiPoisson.loglike endog mu freq_weights scale = none) :=
  ⟨fun _ _ _ _ => rfl, fun _ _ _ => rfl, fun _ _ _ _ => rfl⟩

/-- C7: NegativeBinomial.deviance equals the explicit per-observation sum
    `sum(resid_dev * freq_weights * var_weights / scale)` with
    `resid_dev = 2*(endog*log(endog/mu) - (endog+1/alpha)*log((endog+1/alpha)/(mu+1/alpha)))`
    and `endog/mu` clipped below at machine epsilon before the logarithm. -/
theorem claim_C7 (alpha : ℝ) (endog mu var_weights freq_weights : List ℝ) (scale : ℝ) :
    NegativeBinomial.deviance alpha endog mu var_weights freq_weights scale =
      (zipWith4
        (fun y m w v =>
          2 * (y * Real.log (max (y / m) FLOAT_EPS)
            - (y + 1 / alpha) * Real.log ((y + 1 / alpha) / (m + 1 / alpha))) * w * v / scale)
        endog mu freq_weights var_weights).sum := by
  unfold NegativeBinomial.deviance NegativeBinomial.resid_dev NegativeBinomial.clean
  induction endog generalizing mu freq_weights var_weights with
  | nil => simp [zipWith3, zipWith4]
  | cons y ys ih =>
    cases mu with
    | nil => simp [zipWith3, zipWith4]
    | cons m ms =>
      cases freq_weights with
      | nil => simp [zipWith3, zipWith4]
      | cons w ws =>
        cases var_weights with
        | nil => simp [zipWith3, zipWith4]
        | cons v vs =>
          simp only [zipWith3, zipWith4, List.zipWith_cons_cons, List.sum_cons]
          rw [ih]

lemma zipWith_rowdiv (rows : List (ℝ × ℝ)) :
    List.zipWith (fun (p : ℝ × ℝ) nn => p.1 * 1.0 / nn) rows (rows.map fun p => p.1 + p.2)
      = rows.map fun p => p.1 / (p.1 + p.2) := by
  induction rows with
  | nil => rfl
  | cons p ps ih =>
    simp only [List.map_cons, List.zipWith_cons_cons, ih]
    norm_num

/-- C4 counterexample: on the two-column input [(1, 3)] the trial count is
    updated to the row sums [4], but the variance function still holds the
    construction-time parameter n = 1, contradicting the claim that
    initialization reconfigures the variance function to use the new n. -/
theorem claim_C4_counterexample :
    (Binomial.initResp Binomial.mkFam (EndogInput.two [(1, 3)])).1.n = Sum.inr [4]
    ∧ (Binomial.initResp Binomial.mkFam (EndogInput.two [(1, 3)])).1.varianceN ≠ Sum.inr [4] := by
  constructor
  · show Sum.inr [(1 : ℝ) + 3] = Sum.inr [4]
    norm_num
  · show Sum.inl 1 ≠ Sum.inr [4]
    simp

/-- C4 (amended): on a two-column (successes, failures) response,
    initialization returns the proportions successes/(successes+failures),
    sets the trial count n to the per-observation row sums, but leaves the
    variance function keyed on the construction-time n = 1; on a one-column
    response it leaves the whole state unchanged (n still the scalar 1,
    variance still keyed on n = 1) and returns the response unchanged. -/
theorem claim_C4 :
    (∀ rows : List (ℝ × ℝ),
      (Binomial.initResp Binomial.mkFam (EndogInput.two rows)).1.n
          = Sum.inr (rows.map fun p => p.1 + p.2)
        ∧ (Binomial.initResp Binomial.mkFam (EndogInput.two rows)).1.varianceN = Sum.inl 1
        ∧ (Binomial.initResp Binomial.mkFam (EndogInput.two rows)).2.1
          = rows.map (fun p => p.1 / (p.1 + p.2))
        ∧ (Binomial.initResp Binomial.mkFam (EndogInput.two rows)).2.2
          = rows.map fun p => p.1 + p.2)
    ∧ (∀ v : List ℝ,
        (Binomial.initResp Binomial.mkFam (EndogInput.one v)).1 = Binomial.mkFam
        ∧ (Binomial.initResp Binomial.mkFam (EndogInput.one v)).2.1 = v
        ∧ (Binomial.initResp Binomial.mkFam (EndogInput.one v)).2.2 = List.replicate v.length 1) := by
  constructor
  · intro rows
    refine ⟨rfl, rfl, ?_, rfl⟩
    exact zipWith_rowdiv rows
  · intro v
    exact ⟨rfl, rfl, rfl⟩

/-- C5 counterexample: assigning the (Link-instance) logit link to a family
    whose allowed set is [log] raises the invalid-choice error, yet the
    rejected object is left stored as the family's link, so the invariant
    that the stored link belongs to the allowed set does not survive the
    failed assignment attempt. -/
theorem claim_C5_counterexample :
    (Family.setlink [LinkClass.log] (LinkArg.link LinkClass.logit)).2
        = SetlinkOutcome.valueErr [LinkClass.log]
    ∧ (Family.setlink [LinkClass.log] (LinkArg.link LinkClass.logit)).1
        = LinkArg.link LinkClass.logit
    ∧ LinkClass.logit ∉ [LinkClass.log] := by
  decide

/-- C5 (amended): link assignment stores the supplied object first and only
    then validates it: the outcome is the invalid-type error exactly for
    non-Link objects, the invalid-choice error (naming the allowed set)
    exactly for Link instances outside the allowed set, and success exactly
    for allowed Link instances; the stored link always equals the supplied
    object, so the allowed-set invariant holds after successful assignments
    but is violated by a failed invalid-choice assignment. -/
theorem claim_C5 (allowed : List LinkClass) (arg : LinkArg) :
    ((Family.setlink allowed arg).2 = SetlinkOutcome.typeErr ↔ arg = LinkArg.notLink)
    ∧ ((Family.setlink allowed arg).2 = SetlinkOutcome.valueErr allowed
        ↔ ∃ c, arg = LinkArg.link c ∧ c ∉ allowed)
    ∧ ((Family.setlink allowed arg).2 = SetlinkOutcome.ok
        ↔ ∃ c, arg = LinkArg.link c ∧ c ∈ allowed)
    ∧ (Family.setlink allowed arg).1 = arg := by
  cases arg with
  | notLink => simp [Family.setlink]
  | link c =>
    by_cases h : c ∈ allowed
    · simp [Family.setlink, h]
    · simp [Family.setlink, h]

/-- C5 witness: assigning an allowed Link instance succeeds. -/
theorem claim_C5_witness :
    (Family.setlink [LinkClass.log] (LinkArg.link LinkClass.log)).2 = SetlinkOutcome.ok :=
  ((claim_C5 [LinkClass.log] (LinkArg.link LinkClass.log)).2.2.1).mpr
    ⟨LinkClass.log, rfl, by decide⟩

/-- C9: whenever the family's link satisfies the round-trip contract
    inverse(call(mu)) = mu on the family's valid mean range, composing
    predict (the forward link) with fitted (the inverse link) is the
    identity on arrays of valid means. -/
theorem claim_C9 (link : Link) (valid : ℝ → Prop)
    (hround : ∀ x, valid x → link.inverse (link.call x) = x)
    (mu : List ℝ) (hmu : ∀ x ∈ mu, valid x) :
    Family.fitted link (Family.predict link mu) = mu := by
  unfold Family.fitted Family.predict
  rw [List.map_map]
  calc mu.map (link.inverse ∘ link.call)
      = mu.map id := List.map_congr_left fun x hx => hround x (hmu x hx)
    _ = mu := List.map_id mu

/-- C9 witness: a concrete affine link with exact inverse on a concrete
    mean array. -/
theorem claim_C9_witness :
    Family.fitted ⟨fun x => x + 2, fun x => x - 2, fun _ => 1, fun x => x, false⟩
        (Family.predict ⟨fun x => x + 2, fun x => x - 2, fun _ => 1, fun x => x, false⟩
          [0, 1, 5]) = [0, 1, 5] :=
  claim_C9 ⟨fun x => x + 2, fun x => x - 2, fun _ => 1, fun x => x, false⟩
    (fun _ => True) (fun x _ => by ring) [0, 1, 5] (fun x _ => trivial)

lemma zipWith3_sum_congr {f g : ℝ → ℝ → ℝ → ℝ} (as bs cs : List ℝ)
    (h : ∀ a ∈ as, ∀ b ∈ bs, ∀ c ∈ cs, f a b c = g a b c) :
    (zipWith3 f as bs cs).sum = (zipWith3 g as bs cs).sum := by
  induction as generalizing bs cs with
  | nil => simp [zipWith3]
  | cons a as ih =>
    cases bs with
    | nil => simp [zipWith3]
    | cons b bs =>
      cases cs with
      | nil => simp [zipWith3]
      | cons c cs =>
        simp only [zipWith3, List.sum_cons]
        rw [h a (by simp) b (by simp) c (by simp),
          ih bs cs (fun a' ha' b' hb' c' hc' =>
            h a' (by simp [ha']) b' (by simp [hb']) c' (by simp [hc']))]

/-- C6: Gaussian.loglike branches on the link — for the identity/power-1
    link it returns the concentrated OLS log-likelihood
    `-n/2*log(SSR) - n/2*(1+log(2*pi/n))` with
    `SSR = sum((endog - fitted(mu))^2)`, ignoring freq_weights and scale;
    for every other link it returns the general exponential-family sum. -/
theorem claim_C6 (link : Link) (endog mu freq_weights : List ℝ) (scale : ℝ) :
    (link.isPowerOne = true →
      Gaussian.loglike link endog mu freq_weights scale =
        -((endog.length : ℝ) / 2) *
            Real.log ((List.zipWith (fun y f => (y - f) ^ 2) endog
              (Family.fitted link mu)).sum)
          - ((endog.length : ℝ) / 2) * (1 + Real.log (2 * Real.pi / (endog.length : ℝ))))
    ∧ (link.isPowerOne = false →
      Gaussian.loglike link endog mu freq_weights scale =
        (zipWith3
          (fun y m w => w * ((y * m - m ^ 2 / 2) / scale - y ^ 2 / (2 * scale)
            - 0.5 * Real.log (2 * Real.pi * scale)))
          endog mu freq_weights).sum) := by
  constructor
  · intro h
    unfold Gaussian.loglike Family.fitted
    rw [if_pos h]
    simp only [List.zipWith_map_right]
    have e : Real.pi / ((endog.length : ℝ) / 2) = 2 * Real.pi / (endog.length : ℝ) := by
      rw [div_div_eq_mul_div]; ring_nf
    rw [e]; ring
  · intro h
    unfold Gaussian.loglike
    rw [if_neg (by simp [h])]

/-- C6 witness: the identity-link branch on the spec's fixed dataset
    endog = [1,2,3], mu = [1.1,1.9,3.2], and the general branch on a
    non-identity (logit) link. -/
theorem claim_C6_witness :
    (Gaussian.loglike identityLink [1, 2, 3] [1.1, 1.9, 3.2] [1, 1, 1] 1 =
      -((([(1 : ℝ), 2, 3]).length : ℝ) / 2) *
          Real.log ((List.zipWith (fun y f => (y - f) ^ 2) [(1 : ℝ), 2, 3]
            (Family.fitted identityLink [1.1, 1.9, 3.2])).sum)
        - ((([(1 : ℝ), 2, 3]).length : ℝ) / 2) *
          (1 + Real.log (2 * Real.pi / (([(1 : ℝ), 2, 3]).length : ℝ))))
    ∧ (Gaussian.loglike logitLink [1] [2] [3] 2 =
        (zipWith3
          (fun y m w => w * ((y * m - m ^ 2 / 2) / 2 - y ^ 2 / (2 * 2)
            - 0.5 * Real.log (2 * Real.pi * 2)))
          [1] [2] [3]).sum) :=
  ⟨(claim_C6 identityLink [1, 2, 3] [1.1, 1.9, 3.2] [1, 1, 1] 1).1 rfl,
   (claim_C6 logitLink [1] [2] [3] 2).2 rfl⟩

/-- C8: with the trial count equal to the scalar 1 and endog entries in
    {0,1}, Binomial.deviance equals
    `-2*sum(freq_weights*(1[endog=1]*log(mu+1e-200) + 1[endog≠1]*log(1-mu+1e-200)))`;
    and on endog=[1,0,1], mu=[0.8,0.3,0.6] with unit frequency weights it is
    within 1e-100 of `-2*(log(0.8)+log(0.7)+log(0.6))`. -/
theorem claim_C8 :
    (∀ (endog mu freq_weights : List ℝ) (scale : ℝ),
      (∀ y ∈ endog, y = 0 ∨ y = 1) →
      Binomial.deviance (Sum.inl 1) endog mu freq_weights scale =
        -2 * (zipWith3
          (fun y m w => w * ((if y = 1 then (1 : ℝ) else 0) * Real.log (m + 1e-200)
            + (if y = 1 then (0 : ℝ) else 1) * Real.log (1 - m + 1e-200)))
          endog mu freq_weights).sum)
    ∧ |Binomial.deviance (Sum.inl 1) [1, 0, 1] [0.8, 0.3, 0.6] [1, 1, 1] 1
        - (-2 * (Real.log 0.8 + Real.log 0.7 + Real.log 0.6))| < 1e-100 := by
  have hgen : ∀ (endog mu freq_weights : List ℝ) (scale : ℝ),
      Binomial.deviance (Sum.inl 1) endog mu freq_weights scale =
        -2 * (zipWith3
          (fun y m w => w * ((if y = 1 then (1 : ℝ) else 0) * Real.log (m + 1e-200)
            + (if y = 1 then (0 : ℝ) else 1) * Real.log (1 - m + 1e-200)))
          endog mu freq_weights).sum := by
    intro endog mu freq_weights scale
    rw [Binomial.deviance, if_pos rfl]
    congr 1
    apply zipWith3_sum_congr
    intro y _ m _ w _
    by_cases hy : y = 1 <;> simp [hy] <;> ring
  constructor
  · intro endog mu freq_weights scale _
    exact hgen endog mu freq_weights scale
  · have hδ : (0 : ℝ) < 1e-200 := by norm_num
    have key : ∀ x : ℝ, 1/2 ≤ x → x ≤ 1 →
        0 ≤ Real.log (x + 1e-200) - Real.log x
        ∧ Real.log (x + 1e-200) - Real.log x ≤ 2 * 1e-200 := by
      intro x hx1 hx2
      have hx0 : 0 < x := by linarith
      constructor
      · have := Real.log_lt_log hx0 (show x < x + 1e-200 by linarith)
        linarith
      · have h := Real.log_le_sub_one_of_pos (show 0 < (x + 1e-200) / x by positivity)
        rw [Real.log_div (by positivity) (ne_of_gt hx0)] at h
        have e1 : (x + 1e-200) / x - 1 = 1e-200 / x := by field_simp
        have e2 : 1e-200 / x ≤ 2 * 1e-200 := by
          rw [div_le_iff hx0]
          nlinarith
        linarith
    have hdev : Binomial.deviance (Sum.inl 1) [1, 0, 1] [0.8, 0.3, 0.6] [1, 1, 1] 1
        = -2 * (Real.log (0.8 + 1e-200) + Real.log (0.7 + 1e-200) + Real.log (0.6 + 1e-200)) := by
      rw [hgen]
      norm_num [zipWith3]
      ring
    rw [hdev]
    obtain ⟨l1, u1⟩ := key 0.8 (by norm_num) (by norm_num)
    obtain ⟨l2, u2⟩ := key 0.7 (by norm_num) (by norm_num)
    obtain ⟨l3, u3⟩ := key 0.6 (by norm_num) (by norm_num)
    rw [abs_lt]
    constructor <;> nlinarith

/-- C8 witness: the Bernoulli formula at a concrete configuration with a
    non-default scale and non-unit frequency weights. -/
theorem claim_C8_witness :
    Binomial.deviance (Sum.inl 1) [1, 0] [0.25, 0.5] [2, 3] 7 =
      -2 * (zipWith3
        (fun y m w => w * ((if y = 1 then (1 : ℝ) else 0) * Real.log (m + 1e-200)
          + (if y = 1 then (0 : ℝ) else 1) * Real.log (1 - m + 1e-200)))
        [1, 0] [0.25, 0.5] [2, 3]).sum :=
  claim_C8.1 [1, 0] [0.25, 0.5] [2, 3] 7 (by norm_num)

/-- C10: Gamma.deviance and Gamma.resid_dev are invariant to the scale
    argument — the parameter is accepted but ignored by both. -/
theorem claim_C10 :
    (∀ (endog mu freq_weights : List ℝ) (scale : ℝ),
        Gamma.deviance endog mu freq_weights scale = Gamma.deviance endog mu freq_weights 1)
    ∧ (∀ (endog mu : List ℝ) (scale : ℝ),
        Gamma.resid_dev endog mu scale = Gamma.resid_dev endog mu 1) :=
  ⟨fun _ _ _ _ => rfl, fun _ _ _ => rfl⟩

lemma FLOAT_EPS_pos : 0 < FLOAT_EPS := by norm_num [FLOAT_EPS]

lemma FLOAT_EPS_le_one : FLOAT_EPS ≤ 1 := by norm_num [FLOAT_EPS]

lemma log_FLOAT_EPS : Real.log FLOAT_EPS = -(52 * Real.log 2) := by
  rw [FLOAT_EPS, one_div, Real.log_inv, Real.log_pow]
  norm_num

lemma log52_bounds : 36.04 < 52 * Real.log 2 ∧ 52 * Real.log 2 < 36.05 := by
  constructor
  · nlinarith [Real.log_two_gt_d9]
  · nlinarith [Real.log_two_lt_d9]

lemma real_sign_sq {x : ℝ} (hx : x ≠ 0) : Real.sign x ^ 2 = 1 := by
  rcases lt_or_gt_of_ne hx with h | h
  · rw [Real.sign_of_neg h]; norm_num
  · rw [Real.sign_of_pos h]; norm_num

lemma sum_sq_weighted (f g : ℝ → ℝ → ℝ) (endog mu fw : List ℝ)
    (h : ∀ y ∈ endog, ∀ m ∈ mu, f y m ^ 2 = g y m) :
    (List.zipWith (fun w r => w * r ^ 2) fw (List.zipWith f endog mu)).sum
      = (zipWith3 (fun y m w => w * g y m) endog mu fw).sum := by
  induction endog generalizing mu fw with
  | nil => simp [zipWith3]
  | cons y ys ih =>
    cases mu with
    | nil => simp [zipWith3]
    | cons m ms =>
      cases fw with
      | nil => simp [zipWith3]
      | cons w ws =>
        simp only [List.zipWith_cons_cons, zipWith3, List.sum_cons]
        rw [h y (by simp) m (by simp),
          ih ms ws (fun y' hy' m' hm' => h y' (by simp [hy']) m' (by simp [hm']))]

lemma map_id_of_mem {l : List ℝ} {f : ℝ → ℝ} (h : ∀ x ∈ l, f x = x) : l.map f = l := by
  induction l with
  | nil => rfl
  | cons a as ih =>
    simp only [List.map_cons]
    rw [h a (by simp), ih (fun x hx => h x (by simp [hx]))]

lemma logit_clean_fix {m : ℝ} (h1 : FLOAT_EPS ≤ m) (h2 : m ≤ 1 - FLOAT_EPS) :
    Logit.clean m = m := by
  rw [Logit.clean, max_eq_left h1, min_eq_left h2]

lemma pois_arg_nonneg {y m : ℝ} (hy : 0 ≤ y) (hm : 0 < m) :
    0 ≤ 2 * (y * Real.log (Poisson.clean (y / m)) - (y - m)) := by
  rcases eq_or_lt_of_le hy with hy0 | hy0
  · rw [← hy0]
    simp only [zero_mul, zero_sub, neg_sub]
    linarith
  · rcases le_or_lt FLOAT_EPS (y / m) with hcl | hcl
    · rw [Poisson.clean, max_eq_left hcl]
      have hlog : Real.log (m / y) ≤ m / y - 1 :=
        Real.log_le_sub_one_of_pos (div_pos hm hy0)
      have e : Real.log (y / m) = -Real.log (m / y) := by
        rw [← Real.log_inv, inv_div]
      have h2 : y * (m / y - 1) = m - y := by field_simp
      rw [e]
      nlinarith [mul_le_mul_of_nonneg_left hlog hy0.le]
    · rw [Poisson.clean, max_eq_right hcl.le, log_FLOAT_EPS]
      have hyltm : y < FLOAT_EPS * m := (div_lt_iff hm).mp hcl
      have h52 := log52_bounds
      have heps : FLOAT_EPS * 38 ≤ 1 := by norm_num [FLOAT_EPS]
      have hL : 0 < 1 + 52 * Real.log 2 := by nlinarith [h52.1]
      have h1 : y * (1 + 52 * Real.log 2) < FLOAT_EPS * m * (1 + 52 * Real.log 2) :=
        mul_lt_mul_of_pos_right hyltm hL
      have h2 : FLOAT_EPS * m * (1 + 52 * Real.log 2) ≤ FLOAT_EPS * m * 38 := by
        have h38 : 1 + 52 * Real.log 2 ≤ 38 := by nlinarith [h52.2]
        exact mul_le_mul_of_nonneg_left h38 (mul_nonneg FLOAT_EPS_pos.le hm.le)
      have h3 : m * (FLOAT_EPS * 38) ≤ m * 1 := mul_le_mul_of_nonneg_left heps hm.le
      nlinarith [h1, h2, h3]

lemma gamma_arg_nonneg {y m : ℝ} (hy : 0 < y) (hm : 0 < m) :
    0 ≤ -2 * (-(y - m) / m + Real.log (Gamma.clean (y / m))) := by
  have e : -(y - m) / m = -(y / m) + 1 := by field_simp; ring
  rcases le_or_lt FLOAT_EPS (y / m) with hcl | hcl
  · rw [Gamma.clean, max_eq_left hcl, e]
    have hlog : Real.log (y / m) ≤ y / m - 1 :=
      Real.log_le_sub_one_of_pos (div_pos hy hm)
    nlinarith
  · rw [Gamma.clean, max_eq_right hcl.le, log_FLOAT_EPS, e]
    have ht : 0 < y / m := div_pos hy hm
    have h52 := log52_bounds
    nlinarith [h52.1]

lemma pois_sq {y m : ℝ} (hy : 0 ≤ y) (hm : 0 < m) :
    (Real.sign (y - m) *
      Real.sqrt (2 * (y * Real.log (Poisson.clean (y / m)) - (y - m))) / 1) ^ 2
      = 2 * (y * Real.log (Poisson.clean (y / m)) - (y - m)) := by
  rw [div_one, mul_pow]
  rcases eq_or_ne y m with rfl | hne
  · rw [sub_self, Real.sign_zero, div_self hm.ne', Poisson.clean,
      max_eq_left FLOAT_EPS_le_one, Real.log_one]
    ring
  · rw [real_sign_sq (sub_ne_zero.mpr hne), Real.sq_sqrt (pois_arg_nonneg hy hm), one_mul]

lemma gamma_sq {y m : ℝ} (hy : 0 < y) (hm : 0 < m) :
    (Real.sign (y - m) *
      Real.sqrt (-2 * (-(y - m) / m + Real.log (Gamma.clean (y / m))))) ^ 2
      = -2 * (-(y - m) / m + Real.log (Gamma.clean (y / m))) := by
  rw [mul_pow]
  rcases eq_or_ne y m with rfl | hne
  · rw [sub_self, Real.sign_zero, div_self hm.ne', Gamma.clean,
      max_eq_left FLOAT_EPS_le_one, Real.log_one]
    ring
  · rw [real_sign_sq (sub_ne_zero.mpr hne), Real.sq_sqrt (gamma_arg_nonneg hy hm), one_mul]

lemma gauss_sq (y m : ℝ) :
    ((y - m) / Real.sqrt (constantVariance m) / 1) ^ 2 = (y - m) ^ 2 := by
  rw [constantVariance, Real.sqrt_one, div_one, div_one]

lemma binom_sq {y m : ℝ} (hy : y = 0 ∨ y = 1) (hm1 : FLOAT_EPS ≤ m) (hm2 : m ≤ 1 - FLOAT_EPS) :
    (Real.sign (y - m) *
      Real.sqrt (-2 * Real.log ((if y = 1 then (1 : ℝ) else 0) * m
        + (1 - if y = 1 then (1 : ℝ) else 0) * (1 - m))) / 1) ^ 2
      = -2 * ((if y = 1 then (1 : ℝ) else 0) * Real.log m
          + (1 - if y = 1 then (1 : ℝ) else 0) * Real.log (1 - m)) := by
  have hm0 : 0 < m := lt_of_lt_of_le FLOAT_EPS_pos hm1
  have hm1' : m < 1 := by have := FLOAT_EPS_pos; linarith
  rcases hy with rfl | rfl
  · have hif : (if (0 : ℝ) = 1 then (1 : ℝ) else 0) = 0 := by norm_num
    rw [hif]
    have e2 : (0 : ℝ) * m + (1 - 0) * (1 - m) = 1 - m := by ring
    rw [e2]
    have hlog : Real.log (1 - m) ≤ 0 := Real.log_nonpos (by linarith) (by linarith)
    have hnn : (0 : ℝ) ≤ -2 * Real.log (1 - m) := by linarith
    rw [div_one, mul_pow, real_sign_sq (sub_ne_zero.mpr hm0.ne), one_mul, Real.sq_sqrt hnn]
    ring
  · rw [if_pos rfl]
    have e2 : (1 : ℝ) * m + (1 - 1) * (1 - m) = m := by ring
    rw [e2]
    have hlog : Real.log m ≤ 0 := Real.log_nonpos hm0.le hm1'.le
    have hnn : (0 : ℝ) ≤ -2 * Real.log m := by linarith
    have hne : (1 : ℝ) - m ≠ 0 := sub_ne_zero.mpr (by linarith)
    rw [div_one, mul_pow, real_sign_sq hne, one_mul, Real.sq_sqrt hnn]
    ring

lemma pois_sum_shape (endog mu fw : List ℝ) :
    (zipWith3 (fun y m w => w * (2 * (y * Real.log (Poisson.clean (y / m)) - (y - m))))
        endog mu fw).sum
      = 2 * (zipWith3 (fun y m w => y * w * Real.log (Poisson.clean (y / m))) endog mu fw).sum
        - 2 * (zipWith3 (fun y m w => w * (y - m)) endog mu fw).sum := by
  induction endog generalizing mu fw with
  | nil => simp [zipWith3]
  | cons y ys ih =>
    cases mu with
    | nil => simp [zipWith3]
    | cons m ms =>
      cases fw with
      | nil => simp [zipWith3]
      | cons w ws =>
        simp only [zipWith3, List.sum_cons]
        rw [ih]; ring

lemma gamma_sum_shape (endog mu fw : List ℝ) :
    (zipWith3 (fun y m w => w * (-2 * (-(y - m) / m + Real.log (Gamma.clean (y / m)))))
        endog mu fw).sum
      = 2 * (zipWith3 (fun y m w => w * ((y - m) / m - Real.log (Gamma.clean (y / m))))
          endog mu fw).sum := by
  induction endog generalizing mu fw with
  | nil => simp [zipWith3]
  | cons y ys ih =>
    cases mu with
    | nil => simp [zipWith3]
    | cons m ms =>
      cases fw with
      | nil => simp [zipWith3]
      | cons w ws =>
        simp only [zipWith3, List.sum_cons]
        rw [ih]; ring

lemma binom_sum_shape (endog mu fw : List ℝ) :
    (zipWith3 (fun y m w => w * (-2 * ((if y = 1 then (1 : ℝ) else 0) * Real.log m
        + (1 - if y = 1 then (1 : ℝ) else 0) * Real.log (1 - m)))) endog mu fw).sum
      = -2 * (zipWith3 (fun y m w => w * ((if y = 1 then (1 : ℝ) else 0) * Real.log m
          + (1 - if y = 1 then (1 : ℝ) else 0) * Real.log (1 - m))) endog mu fw).sum := by
  induction endog generalizing mu fw with
  | nil => simp [zipWith3]
  | cons y ys ih =>
    cases mu with
    | nil => simp [zipWith3]
    | cons m ms =>
      cases fw with
      | nil => simp [zipWith3]
      | cons w ws =>
        simp only [zipWith3, List.sum_cons]
        rw [ih]; ring

/-- C1 counterexample: at endog=[1], mu=[2] with unit frequency weight, the
    weighted sum of squared Poisson deviance residuals is 2 - 2*log 2 while
    Poisson.deviance is -2*log 2 (the -(endog-mu) term is missing from the
    deviance); and at endog=[1], mu=[1/2] the squared Binomial (Bernoulli)
    residual sums to 2*log 2 while Binomial.deviance is
    -2*log(1/2 + 1e-200), which differs by the additive floor. -/
theorem claim_C1_counterexample :
    (List.zipWith (fun w r => w * r ^ 2) [1] (Poisson.resid_dev [1] [2] 1)).sum
        ≠ Poisson.deviance [1] [2] [1] 1
    ∧ (List.zipWith (fun w r => w * r ^ 2) [1]
          (Binomial.resid_dev logitLink (Sum.inl 1) [1] [1 / 2] 1)).sum
        ≠ Binomial.deviance (Sum.inl 1) [1] [1 / 2] [1] 1 := by
  have hc : Poisson.clean ((1 : ℝ) / 2) = 1 / 2 := by
    rw [Poisson.clean, max_eq_left (by norm_num [FLOAT_EPS])]
  constructor
  · have hr : (List.zipWith (fun w r => w * r ^ 2) [1] (Poisson.resid_dev [1] [2] 1)).sum
        = 2 * ((1 : ℝ) * Real.log (Poisson.clean (1 / 2)) - (1 - 2)) := by
      rw [Poisson.resid_dev]
      simp only [List.zipWith_cons_cons, List.zipWith_nil_right, List.sum_cons, List.sum_nil]
      rw [pois_sq (by norm_num : (0:ℝ) ≤ 1) (by norm_num : (0:ℝ) < 2)]
      ring
    have hd : Poisson.deviance [1] [2] [1] 1
        = 2 * ((1 : ℝ) * 1 * Real.log (Poisson.clean (1 / 2))) := by
      rw [Poisson.deviance]
      simp [zipWith3]
    rw [hr, hd, hc]
    intro h
    nlinarith [h]
  · have hcl : Logit.clean ((1 : ℝ) / 2) = 1 / 2 :=
      logit_clean_fix (by norm_num [FLOAT_EPS]) (by norm_num [FLOAT_EPS])
    have hsq := binom_sq (y := 1) (m := 1 / 2) (Or.inr rfl)
      (by norm_num [FLOAT_EPS]) (by norm_num [FLOAT_EPS])
    have hr : (List.zipWith (fun w r => w * r ^ 2) [1]
          (Binomial.resid_dev logitLink (Sum.inl 1) [1] [1 / 2] 1)).sum
        = -2 * ((1 : ℝ) * Real.log (1 / 2) + (1 - 1) * Real.log (1 - 1 / 2)) := by
      rw [Binomial.resid_dev, if_pos rfl]
      have hmap : ([1 / 2] : List ℝ).map logitLink.clean = [1 / 2] := by
        show [Logit.clean (1 / 2)] = [(1 : ℝ) / 2]
        rw [hcl]
      rw [hmap]
      show (1 : ℝ) * (Real.sign ((1 : ℝ) - 1 / 2) *
          Real.sqrt (-2 * Real.log ((if (1 : ℝ) = 1 then (1 : ℝ) else 0) * (1 / 2)
            + (1 - if (1 : ℝ) = 1 then (1 : ℝ) else 0) * (1 - 1 / 2))) / 1) ^ 2 + 0
        = -2 * ((1 : ℝ) * Real.log (1 / 2) + (1 - 1) * Real.log (1 - 1 / 2))
      rw [hsq, if_pos rfl]
      ring
    have hd : Binomial.deviance (Sum.inl 1) [1] [1 / 2] [1] 1
        = -2 * (Real.log (1 / 2 + 1e-200)) := by
      rw [Binomial.deviance, if_pos rfl]
      show -2 * (((if (1 : ℝ) = 1 then (1 : ℝ) else 0) * Real.log (1 / 2 + 1e-200)
          + (1 - if (1 : ℝ) = 1 then (1 : ℝ) else 0) * Real.log (1 - 1 / 2 + 1e-200)) * 1 + 0)
        = -2 * (Real.log (1 / 2 + 1e-200))
      rw [if_pos rfl]
      ring
    rw [hr, hd]
    have hlt : Real.log ((1 : ℝ) / 2) < Real.log (1 / 2 + 1e-200) :=
      Real.log_lt_log (by norm_num) (by norm_num)
    intro h
    nlinarith [h, hlt]

/-- C1 (amended): the frequency-weighted sum of squared resid_dev(scale=1)
    equals deviance(scale=1) for Gaussian and Gamma.  For Poisson the sum of
    squares instead equals deviance minus 2*sum(freq_weights*(endog-mu)) —
    the implemented deviance omits the -(endog-mu) correction.  For Binomial
    (Bernoulli branch: n the scalar 1, endog in {0,1}, mu inside the link's
    unclipped range) the sum of squares equals the Bernoulli deviance with
    the 1e-200 additive floors removed from the logarithms. -/
theorem claim_C1 :
    (∀ (endog mu fw : List ℝ),
      (List.zipWith (fun w r => w * r ^ 2) fw (Gaussian.resid_dev endog mu 1)).sum
        = Gaussian.deviance endog mu fw 1)
    ∧ (∀ (endog mu fw : List ℝ), (∀ y ∈ endog, 0 < y) → (∀ m ∈ mu, 0 < m) →
      (List.zipWith (fun w r => w * r ^ 2) fw (Gamma.resid_dev endog mu 1)).sum
        = Gamma.deviance endog mu fw 1)
    ∧ (∀ (endog mu fw : List ℝ), (∀ y ∈ endog, 0 ≤ y) → (∀ m ∈ mu, 0 < m) →
      (List.zipWith (fun w r => w * r ^ 2) fw (Poisson.resid_dev endog mu 1)).sum
        = Poisson.deviance endog mu fw 1
          - 2 * (zipWith3 (fun y m w => w * (y - m)) endog mu fw).sum)
    ∧ (∀ (endog mu fw : List ℝ),
        (∀ y ∈ endog, y = 0 ∨ y = 1) →
        (∀ m ∈ mu, FLOAT_EPS ≤ m ∧ m ≤ 1 - FLOAT_EPS) →
      (List.zipWith (fun w r => w * r ^ 2) fw
          (Binomial.resid_dev logitLink (Sum.inl 1) endog mu 1)).sum
        = -2 * (zipWith3
            (fun y m w => w * ((if y = 1 then (1 : ℝ) else 0) * Real.log m
              + (1 - if y = 1 then (1 : ℝ) else 0) * Real.log (1 - m))) endog mu fw).sum) := by
  refine ⟨?_, ?_, ?_, ?_⟩
  · intro endog mu fw
    rw [Gaussian.resid_dev,
      sum_sq_weighted (fun y m => (y - m) / Real.sqrt (constantVariance m) / 1)
        (fun y m => (y - m) ^ 2) endog mu fw (fun y _ m _ => gauss_sq y m),
      Gaussian.deviance, div_one]
  · intro endog mu fw hy hm
    rw [Gamma.resid_dev,
      sum_sq_weighted
        (fun y m => Real.sign (y - m) *
          Real.sqrt (-2 * (-(y - m) / m + Real.log (Gamma.clean (y / m)))))
        (fun y m => -2 * (-(y - m) / m + Real.log (Gamma.clean (y / m)))) endog mu fw
        (fun y hy' m hm' => gamma_sq (hy y hy') (hm m hm')),
      Gamma.deviance]
    exact gamma_sum_shape endog mu fw
  · intro endog mu fw hy hm
    rw [Poisson.resid_dev,
      sum_sq_weighted
        (fun y m => Real.sign (y - m) *
          Real.sqrt (2 * (y * Real.log (Poisson.clean (y / m)) - (y - m))) / 1)
        (fun y m => 2 * (y * Real.log (Poisson.clean (y / m)) - (y - m))) endog mu fw
        (fun y hy' m hm' => pois_sq (hy y hy') (hm m hm')),
      Poisson.deviance, div_one, pois_sum_shape]
  · intro endog mu fw hy hm
    rw [Binomial.resid_dev, if_pos rfl]
    simp only [logitLink]
    rw [map_id_of_mem (fun m hm' => logit_clean_fix (hm m hm').1 (hm m hm').2)]
    rw [sum_sq_weighted
        (fun y m => Real.sign (y - m) *
          Real.sqrt (-2 * Real.log ((if y = 1 then (1 : ℝ) else 0) * m
            + (1 - if y = 1 then (1 : ℝ) else 0) * (1 - m))) / 1)
        (fun y m => -2 * ((if y = 1 then (1 : ℝ) else 0) * Real.log m
          + (1 - if y = 1 then (1 : ℝ) else 0) * Real.log (1 - m))) endog mu fw
        (fun y hy' m hm' => binom_sq (hy y hy') (hm m hm').1 (hm m hm').2)]
    exact binom_sum_shape endog mu fw

/-- C1 witness: the four amended statements instantiated at concrete data. -/
theorem claim_C1_witness :
    ((List.zipWith (fun w r => w * r ^ 2) [3] (Gaussian.resid_dev [1] [2] 1)).sum
        = Gaussian.deviance [1] [2] [3] 1)
    ∧ ((List.zipWith (fun w r => w * r ^ 2) [1] (Gamma.resid_dev [1] [2] 1)).sum
        = Gamma.deviance [1] [2] [1] 1)
    ∧ ((List.zipWith (fun w r => w * r ^ 2) [1] (Poisson.resid_dev [1] [2] 1)).sum
        = Poisson.deviance [1] [2] [1] 1
          - 2 * (zipWith3 (fun y m w => w * (y - m)) [1] [2] [1]).sum)
    ∧ ((List.zipWith (fun w r => w * r ^ 2) [1]
          (Binomial.resid_dev logitLink (Sum.inl 1) [1] [1 / 2] 1)).sum
        = -2 * (zipWith3
            (fun y m w => w * ((if y = 1 then (1 : ℝ) else 0) * Real.log m
              + (1 - if y = 1 then (1 : ℝ) else 0) * Real.log (1 - m))) [1] [1 / 2] [1]).sum) :=
  ⟨claim_C1.1 [1] [2] [3],
   claim_C1.2.1 [1] [2] [1] (by norm_num) (by norm_num),
   claim_C1.2.2.1 [1] [2] [1] (by norm_num) (by norm_num),
   claim_C1.2.2.2 [1] [1 / 2] [1] (by norm_num) (by norm_num [FLOAT_EPS])⟩

lemma zipWith_spec (t : ℝ → ℝ → ℝ) (endog mu : List ℝ)
    (hlen : endog.length = mu.length)
    (h : ∀ y ∈ endog, ∀ m ∈ mu, 0 ≤ t y m ∧ (t y m = 0 ↔ y = m)) :
    0 ≤ (List.zipWith t endog mu).sum
    ∧ ((List.zipWith t endog mu).sum = 0 ↔ ∀ p ∈ endog.zip mu, p.1 = p.2) := by
  induction endog generalizing mu with
  | nil =>
    cases mu with
    | nil => simp
    | cons b bs => simp at hlen
  | cons a as ih =>
    cases mu with
    | nil => simp at hlen
    | cons b bs =>
      have hh := h a (by simp) b (by simp)
      obtain ⟨ihn, ihe⟩ := ih bs (by simpa using hlen)
        (fun y hy m hm => h y (by simp [hy]) m (by simp [hm]))
      constructor
      · simp only [List.zipWith_cons_cons, List.sum_cons]
        exact add_nonneg hh.1 ihn
      · simp only [List.zipWith_cons_cons, List.sum_cons, List.zip_cons_cons]
        rw [add_eq_zero_iff_of_nonneg hh.1 ihn]
        constructor
        · rintro ⟨h1, h2⟩ p hp
          rcases List.mem_cons.mp hp with rfl | hp'
          · exact hh.2.mp h1
          · exact ihe.mp h2 p hp'
        · intro hall
          exact ⟨hh.2.mpr (hall (a, b) (List.mem_cons_self _ _)),
            ihe.mpr fun p hp => hall p (List.mem_cons_of_mem _ hp)⟩

lemma zipWith3_ones_third (f : ℝ → ℝ → ℝ → ℝ) (as bs : List ℝ) :
    zipWith3 f as bs (ones as) = List.zipWith (fun a b => f a b 1) as bs := by
  unfold ones
  induction as generalizing bs with
  | nil => cases bs <;> rfl
  | cons a as ih =>
    cases bs with
    | nil => rfl
    | cons b bs =>
      simp only [List.map_cons, zipWith3, List.zipWith_cons_cons]
      rw [ih]

lemma zipWith_sum_neg (t : ℝ → ℝ → ℝ) (as bs : List ℝ) :
    (List.zipWith (fun a b => -t a b) as bs).sum = -(List.zipWith t as bs).sum := by
  induction as generalizing bs with
  | nil => simp
  | cons a as ih =>
    cases bs with
    | nil => simp
    | cons b bs =>
      simp only [List.zipWith_cons_cons, List.sum_cons]
      rw [ih]; ring

lemma zipWith3_ones_ones (rs ws vs : List ℝ)
    (hw : ∀ w ∈ ws, w = 1) (hv : ∀ v ∈ vs, v = 1)
    (h1 : rs.length ≤ ws.length) (h2 : rs.length ≤ vs.length) :
    (zipWith3 (fun r w v => r * w * v / 1) rs ws vs).sum = rs.sum := by
  induction rs generalizing ws vs with
  | nil => simp [zipWith3]
  | cons r rs ih =>
    cases ws with
    | nil => simp at h1
    | cons w ws =>
      cases vs with
      | nil => simp at h2
      | cons v vs =>
        simp only [zipWith3, List.sum_cons]
        rw [hw w (by simp), hv v (by simp),
          ih ws vs (fun x hx => hw x (by simp [hx])) (fun x hx => hv x (by simp [hx]))
            (by simpa using h1) (by simpa using h2)]
        ring

lemma nb_dev_ones (alpha : ℝ) (endog mu : List ℝ) :
    NegativeBinomial.deviance alpha endog mu (ones endog) (ones endog) 1
      = (NegativeBinomial.resid_dev alpha endog mu).sum := by
  rw [NegativeBinomial.deviance]
  apply zipWith3_ones_ones
  · intro w hw
    obtain ⟨x, _, rfl⟩ := List.mem_map.mp hw
    rfl
  · intro v hv
    obtain ⟨x, _, rfl⟩ := List.mem_map.mp hv
    rfl
  · rw [NegativeBinomial.resid_dev, List.length_zipWith, ones, List.length_map]
    exact min_le_left _ _
  · rw [NegativeBinomial.resid_dev, List.length_zipWith, ones, List.length_map]
    exact min_le_left _ _

lemma gauss_term_spec (y m : ℝ) :
    0 ≤ 1 * (y - m) ^ 2 ∧ (1 * (y - m) ^ 2 = 0 ↔ y = m) := by
  constructor
  · positivity
  · rw [one_mul, pow_eq_zero_iff (two_ne_zero), sub_eq_zero]

lemma gamma_term_pos {y m : ℝ} (hy : 0 < y) (hm : 0 < m) (hne : y ≠ m) :
    0 < (y - m) / m - Real.log (Gamma.clean (y / m)) := by
  have e : (y - m) / m = y / m - 1 := by field_simp
  rcases le_or_lt FLOAT_EPS (y / m) with hcl | hcl
  · rw [Gamma.clean, max_eq_left hcl, e]
    have ht : 0 < y / m := div_pos hy hm
    have ht1 : y / m ≠ 1 := fun h => hne ((div_eq_one_iff_eq hm.ne').mp h)
    have := Real.log_lt_sub_one_of_pos ht ht1
    linarith
  · rw [Gamma.clean, max_eq_right hcl.le, log_FLOAT_EPS, e]
    have ht : 0 < y / m := div_pos hy hm
    have h52 := log52_bounds
    nlinarith [h52.1]

lemma gamma_term_spec {y m : ℝ} (hy : 0 < y) (hm : 0 < m) :
    0 ≤ 1 * ((y - m) / m - Real.log (Gamma.clean (y / m)))
    ∧ (1 * ((y - m) / m - Real.log (Gamma.clean (y / m))) = 0 ↔ y = m) := by
  rw [one_mul]
  rcases eq_or_ne y m with rfl | hne
  · rw [sub_self, zero_div, div_self hm.ne', Gamma.clean,
      max_eq_left FLOAT_EPS_le_one, Real.log_one]
    norm_num
  · have := gamma_term_pos hy hm hne
    exact ⟨this.le, by
      constructor
      · intro h0; exact absurd h0 (ne_of_gt this)
      · intro h0; exact absurd h0 hne⟩

lemma binom_term_spec {y m : ℝ} (hy : y = 0 ∨ y = 1)
    (hm1 : FLOAT_EPS ≤ m) (hm2 : m ≤ 1 - FLOAT_EPS) :
    0 ≤ -(((if y = 1 then (1 : ℝ) else 0) * Real.log (m + 1e-200)
        + (1 - if y = 1 then (1 : ℝ) else 0) * Real.log (1 - m + 1e-200)) * 1)
    ∧ (-(((if y = 1 then (1 : ℝ) else 0) * Real.log (m + 1e-200)
        + (1 - if y = 1 then (1 : ℝ) else 0) * Real.log (1 - m + 1e-200)) * 1) = 0 ↔ y = m) := by
  have hde : (1e-200 : ℝ) < FLOAT_EPS := by norm_num [FLOAT_EPS]
  have hd0 : (0 : ℝ) < 1e-200 := by norm_num
  have hm0 : 0 < m := lt_of_lt_of_le FLOAT_EPS_pos hm1
  have heps : 0 < FLOAT_EPS := FLOAT_EPS_pos
  rcases hy with rfl | rfl
  · have hif : (if (0 : ℝ) = 1 then (1 : ℝ) else 0) = 0 := by norm_num
    rw [hif]
    have hlog : Real.log (1 - m + 1e-200) < 0 :=
      Real.log_neg (by linarith) (by linarith)
    refine ⟨by nlinarith, ?_, ?_⟩
    · intro h0; exfalso; nlinarith
    · intro h0; exact absurd h0.symm hm0.ne'
  · rw [if_pos rfl]
    have hlog : Real.log (m + 1e-200) < 0 :=
      Real.log_neg (by linarith) (by linarith)
    refine ⟨by nlinarith, ?_, ?_⟩
    · intro h0; exfalso; nlinarith
    · intro h0; exfalso; have : m < 1 := by linarith
      rw [← h0] at this; exact absurd this (by norm_num)

lemma nb_core_pos {c y m : ℝ} (hc : 0 < c) (hy : 0 < y) (hm : 0 < m) (hne : y ≠ m) :
    0 < y * Real.log (y / m) - (y + c) * Real.log ((y + c) / (m + c)) := by
  have hmc : 0 < m + c := by linarith
  have hyc : 0 < y + c := by linarith
  have hu : 0 < (y + c) / (m + c) := div_pos hyc hmc
  have hu1 : (y + c) / (m + c) ≠ 1 := fun h => hne (by
    have := (div_eq_one_iff_eq hmc.ne').mp h
    linarith)
  have hmu : 0 < m * ((y + c) / (m + c)) := mul_pos hm hu
  have l1 : Real.log (y / m) = Real.log y - Real.log m := Real.log_div hy.ne' hm.ne'
  have l2 : Real.log (m * ((y + c) / (m + c)) / y)
      = Real.log m + Real.log ((y + c) / (m + c)) - Real.log y := by
    rw [Real.log_div (by positivity) hy.ne', Real.log_mul hm.ne' hu.ne']
  have k2 : Real.log (m * ((y + c) / (m + c)) / y) ≤ m * ((y + c) / (m + c)) / y - 1 :=
    Real.log_le_sub_one_of_pos (by positivity)
  have k3 : Real.log ((y + c) / (m + c)) < (y + c) / (m + c) - 1 :=
    Real.log_lt_sub_one_of_pos hu hu1
  have k2' : y * Real.log (m * ((y + c) / (m + c)) / y)
      ≤ m * ((y + c) / (m + c)) - y := by
    have hmul := mul_le_mul_of_nonneg_left k2 hy.le
    have ey : y * (m * ((y + c) / (m + c)) / y - 1) = m * ((y + c) / (m + c)) - y := by
      field_simp; ring
    linarith
  have k3' : c * Real.log ((y + c) / (m + c)) < c * ((y + c) / (m + c) - 1) :=
    mul_lt_mul_of_pos_left k3 hc
  have e5 : (y + c) / (m + c) * (m + c) = y + c := by field_simp
  have main : y * Real.log (y / m) - (y + c) * Real.log ((y + c) / (m + c))
      = -(c * Real.log ((y + c) / (m + c)))
        - y * Real.log (m * ((y + c) / (m + c)) / y) := by
    rw [l1, l2]; ring
  rw [main]
  nlinarith [k2', k3', e5]

lemma nb_term_spec {alpha y m : ℝ} (ha : 0 < alpha) (hy : 0 < y) (hm : 0 < m) :
    0 ≤ 2 * (y * Real.log (NegativeBinomial.clean (y / m))
        - (y + 1 / alpha) * Real.log ((y + 1 / alpha) / (m + 1 / alpha)))
    ∧ (2 * (y * Real.log (NegativeBinomial.clean (y / m))
        - (y + 1 / alpha) * Real.log ((y + 1 / alpha) / (m + 1 / alpha))) = 0 ↔ y = m) := by
  have hc : 0 < 1 / alpha := by positivity
  rcases eq_or_ne y m with rfl | hne
  · rw [div_self hy.ne', NegativeBinomial.clean, max_eq_left FLOAT_EPS_le_one,
      Real.log_one, div_self (by positivity : y + 1 / alpha ≠ 0), Real.log_one]
    norm_num
  · rcases le_or_lt FLOAT_EPS (y / m) with hcl | hcl
    · rw [NegativeBinomial.clean, max_eq_left hcl]
      have core := nb_core_pos hc hy hm hne
      refine ⟨by linarith, ?_, ?_⟩
      · intro h0; exfalso; linarith
      · intro h0; exact absurd h0 hne
    · rw [NegativeBinomial.clean, max_eq_right hcl.le]
      have core := nb_core_pos hc hy hm hne
      have hlt : Real.log (y / m) < Real.log FLOAT_EPS :=
        Real.log_lt_log (div_pos hy hm) hcl
      have hmul : y * Real.log (y / m) < y * Real.log FLOAT_EPS :=
        mul_lt_mul_of_pos_left hlt hy
      refine ⟨by nlinarith, ?_, ?_⟩
      · intro h0; exfalso; nlinarith
      · intro h0; exact absurd h0 hne

/-- C2 counterexample: Poisson.deviance at endog=[1], mu=[2] (both in the
    valid mean range, default weights and scale) equals 2*log(1/2) < 0, so
    deviance is not non-negative for every family. -/
theorem claim_C2_counterexample :
    Poisson.deviance [1] [2] (ones [1]) 1 < 0 := by
  have hc : Poisson.clean ((1 : ℝ) / 2) = 1 / 2 := by
    rw [Poisson.clean, max_eq_left (by norm_num [FLOAT_EPS])]
  have hd : Poisson.deviance [1] [2] (ones [1]) 1
      = 2 * ((1 : ℝ) * 1 * Real.log (Poisson.clean (1 / 2))) := by
    rw [Poisson.deviance]
    show 2 * ((1 : ℝ) * 1 * Real.log (Poisson.clean (1 / 2)) + 0) / 1 = _
    ring
  rw [hd, hc]
  have := Real.log_neg (by norm_num : (0 : ℝ) < 1 / 2) (by norm_num : (1 : ℝ) / 2 < 1)
  nlinarith

/-- C2 (amended): with default (unit) weights and scale, deviance is
    non-negative with equality exactly when endog equals mu at every
    observation, for Gaussian (unrestricted data), Gamma (positive data),
    Binomial (Bernoulli branch: endog in {0,1}, mu in the link's unclipped
    range) and NegativeBinomial (positive data, alpha > 0).  The property
    fails for Poisson and QuasiPoisson, whose implemented asymmetric
    deviance formula can be negative. -/
theorem claim_C2 :
    (∀ (endog mu : List ℝ), endog.length = mu.length →
      0 ≤ Gaussian.deviance endog mu (ones endog) 1
      ∧ (Gaussian.deviance endog mu (ones endog) 1 = 0
          ↔ ∀ p ∈ endog.zip mu, p.1 = p.2))
    ∧ (∀ (endog mu : List ℝ), endog.length = mu.length →
        (∀ y ∈ endog, 0 < y) → (∀ m ∈ mu, 0 < m) →
      0 ≤ Gamma.deviance endog mu (ones endog) 1
      ∧ (Gamma.deviance endog mu (ones endog) 1 = 0
          ↔ ∀ p ∈ endog.zip mu, p.1 = p.2))
    ∧ (∀ (endog mu : List ℝ), endog.length = mu.length →
        (∀ y ∈ endog, y = 0 ∨ y = 1) →
        (∀ m ∈ mu, FLOAT_EPS ≤ m ∧ m ≤ 1 - FLOAT_EPS) →
      0 ≤ Binomial.deviance (Sum.inl 1) endog mu (ones endog) 1
      ∧ (Binomial.deviance (Sum.inl 1) endog mu (ones endog) 1 = 0
          ↔ ∀ p ∈ endog.zip mu, p.1 = p.2))
    ∧ (∀ (alpha : ℝ) (endog mu : List ℝ), 0 < alpha → endog.length = mu.length →
        (∀ y ∈ endog, 0 < y) → (∀ m ∈ mu, 0 < m) →
      0 ≤ NegativeBinomial.deviance alpha endog mu (ones endog) (ones endog) 1
      ∧ (NegativeBinomial.deviance alpha endog mu (ones endog) (ones endog) 1 = 0
          ↔ ∀ p ∈ endog.zip mu, p.1 = p.2)) := by
  refine ⟨?_, ?_, ?_, ?_⟩
  · intro endog mu hlen
    rw [Gaussian.deviance, zipWith3_ones_third, div_one]
    exact zipWith_spec (fun y m => 1 * (y - m) ^ 2) endog mu hlen
      (fun y _ m _ => gauss_term_spec y m)
  · intro endog mu hlen hy hm
    rw [Gamma.deviance, zipWith3_ones_third]
    obtain ⟨h1, h2⟩ := zipWith_spec
      (fun y m => 1 * ((y - m) / m - Real.log (Gamma.clean (y / m))))
      endog mu hlen (fun y hy' m hm' => gamma_term_spec (hy y hy') (hm m hm'))
    show 0 ≤ 2 * (List.zipWith
        (fun y m => 1 * ((y - m) / m - Real.log (Gamma.clean (y / m)))) endog mu).sum
      ∧ (2 * (List.zipWith
          (fun y m => 1 * ((y - m) / m - Real.log (Gamma.clean (y / m)))) endog mu).sum = 0
        ↔ ∀ p ∈ endog.zip mu, p.1 = p.2)
    refine ⟨by linarith, ?_, ?_⟩
    · intro h0
      exact h2.mp (by linarith)
    · intro hall
      have := h2.mpr hall
      linarith
  · intro endog mu hlen hy hm
    rw [Binomial.deviance, if_pos rfl, zipWith3_ones_third]
    obtain ⟨h1, h2⟩ := zipWith_spec
      (fun y m => -(((if y = 1 then (1 : ℝ) else 0) * Real.log (m + 1e-200)
        + (1 - if y = 1 then (1 : ℝ) else 0) * Real.log (1 - m + 1e-200)) * 1))
      endog mu hlen
      (fun y hy' m hm' => binom_term_spec (hy y hy') (hm m hm').1 (hm m hm').2)
    have key := zipWith_sum_neg
      (fun y m => ((if y = 1 then (1 : ℝ) else 0) * Real.log (m + 1e-200)
        + (1 - if y = 1 then (1 : ℝ) else 0) * Real.log (1 - m + 1e-200)) * 1)
      endog mu
    rw [key] at h1 h2
    show 0 ≤ -2 * (List.zipWith
        (fun y m => ((if y = 1 then (1 : ℝ) else 0) * Real.log (m + 1e-200)
          + (1 - if y = 1 then (1 : ℝ) else 0) * Real.log (1 - m + 1e-200)) * 1)
        endog mu).sum
      ∧ (-2 * (List.zipWith
          (fun y m => ((if y = 1 then (1 : ℝ) else 0) * Real.log (m + 1e-200)
            + (1 - if y = 1 then (1 : ℝ) else 0) * Real.log (1 - m + 1e-200)) * 1)
          endog mu).sum = 0
        ↔ ∀ p ∈ endog.zip mu, p.1 = p.2)
    refine ⟨by linarith, ?_, ?_⟩
    · intro h0
      exact h2.mp (by linarith)
    · intro hall
      have := h2.mpr hall
      linarith
  · intro alpha endog mu ha hlen hy hm
    rw [nb_dev_ones, NegativeBinomial.resid_dev]
    exact zipWith_spec
      (fun y m => 2 * (y * Real.log (NegativeBinomial.clean (y / m))
        - (y + 1 / alpha) * Real.log ((y + 1 / alpha) / (m + 1 / alpha))))
      endog mu hlen
      (fun y hy' m hm' => nb_term_spec ha (hy y hy') (hm m hm'))

/-- C2 witness: the four amended statements instantiated at concrete data. -/
theorem claim_C2_witness :
    (0 ≤ Gaussian.deviance [1] [2] (ones [1]) 1
      ∧ (Gaussian.deviance [1] [2] (ones [1]) 1 = 0
          ↔ ∀ p ∈ ([(1 : ℝ)].zip [(2 : ℝ)]), p.1 = p.2))
    ∧ (0 ≤ Gamma.deviance [1] [2] (ones [1]) 1
      ∧ (Gamma.deviance [1] [2] (ones [1]) 1 = 0
          ↔ ∀ p ∈ ([(1 : ℝ)].zip [(2 : ℝ)]), p.1 = p.2))
    ∧ (0 ≤ Binomial.deviance (Sum.inl 1) [1] [1 / 2] (ones [1]) 1
      ∧ (Binomial.deviance (Sum.inl 1) [1] [1 / 2] (ones [1]) 1 = 0
          ↔ ∀ p ∈ ([(1 : ℝ)].zip [(1 / 2 : ℝ)]), p.1 = p.2))
    ∧ (0 ≤ NegativeBinomial.deviance 1 [1] [2] (ones [1]) (ones [1]) 1
      ∧ (NegativeBinomial.deviance 1 [1] [2] (ones [1]) (ones [1]) 1 = 0
          ↔ ∀ p ∈ ([(1 : ℝ)].zip [(2 : ℝ)]), p.1 = p.2)) :=
  ⟨claim_C2.1 [1] [2] rfl,
   claim_C2.2.1 [1] [2] rfl (by norm_num) (by norm_num),
   claim_C2.2.2.1 [1] [1 / 2] rfl (by norm_num) (by norm_num [FLOAT_EPS]),
   claim_C2.2.2.2 1 [1] [2] (by norm_num) rfl (by norm_num) (by norm_num)⟩

end Spglm
